import Mathlib

/-!
# Verification of the handins grade projection and assignment resolution engine

Shallow embedding of `src/main.rs` and `src/assignment.rs`.

Modelling conventions:
* `f64` grade/weight arithmetic is modelled by exact rational arithmetic (`ℚ`);
  the quantities involved (grades, weights, their sums and products) stay far
  from overflow, and none of the verified claims depends on rounding.  Division
  and subtraction, however, are modelled on the IEEE-style value type `FV`
  (finite rational, `nan`, `±inf`) because `calculate_grade` divides by sums of
  weights that may be `0.0`, and `0.0 / 0.0` is `NaN` in `f64`.
* Timestamps (`DateTime<FixedOffset>`) are modelled as integers; only their
  linear order is ever used by the program.
* Interactive stdin loops are modelled by explicit recursion over the list of
  response lines plus, for the disambiguation workflow, a step function on a
  state type (`wstep`), as the loops consume one line per iteration.
* The `simsearch` fuzzy engine is an external crate; it is modelled as an
  opaque parameter `search` producing a list of indices into the sorted
  candidate list, which is all `submit_file` uses of it.
* The stable Rust `sort_by` is modelled by `List.insertionSort` (stable) with the
  comparator `a2.due_date.cmp(&a1.due_date)`, i.e. descending by due date.
-/

namespace Handins

/-- The `Assignment` record, from `src/assignment.rs`. -/
structure Assignment where
  name : String
  id : Int
  grade : Option ℚ
  weight : ℚ
  due_date : Int
  deriving DecidableEq, Repr

/-- Model of `Assignment::late` (`now >= self.due_date`), with `now` passed explicitly. -/
def Assignment.late (a : Assignment) (now : Int) : Bool :=
  decide (a.due_date ≤ now)

/-- Model of `Assignment::graded` (`self.grade.is_some()`). -/
def Assignment.graded (a : Assignment) : Bool :=
  a.grade.isSome

/-- Model of `Assignment::how_late` (`now - self.due_date`). -/
def Assignment.how_late (a : Assignment) (now : Int) : Int :=
  now - a.due_date

/-- IEEE-style `f64` value: a finite rational, `NaN`, or a signed infinity.
Finite arithmetic is modelled exactly (see module docstring). -/
inductive FV where
  | fin : ℚ → FV
  | nan : FV
  | posInf : FV
  | negInf : FV
  deriving DecidableEq, Repr

/-- Division of `f64` on `FV`: `0/0` is `NaN`, `x/0` is a signed infinity for
`x ≠ 0`, `NaN` propagates. -/
def FV.div : FV → FV → FV
  | .fin a, .fin b =>
    if b = 0 then
      if a = 0 then .nan else if 0 < a then .posInf else .negInf
    else .fin (a / b)
  | .nan, _ => .nan
  | _, .nan => .nan
  | .fin _, .posInf => .fin 0
  | .fin _, .negInf => .fin 0
  | .posInf, .fin b => if b < 0 then .negInf else .posInf
  | .negInf, .fin b => if b < 0 then .posInf else .negInf
  | _, _ => .nan

/-- Subtraction of `f64` on `FV`: `NaN` propagates, `inf - inf` is `NaN`. -/
def FV.sub : FV → FV → FV
  | .nan, _ => .nan
  | _, .nan => .nan
  | .posInf, .posInf => .nan
  | .negInf, .negInf => .nan
  | .posInf, _ => .posInf
  | .negInf, _ => .negInf
  | .fin _, .posInf => .negInf
  | .fin _, .negInf => .posInf
  | .fin a, .fin b => .fin (a - b)

/-- Comparison `<=` of `f64` on `FV`: any comparison with `NaN` is false. -/
def FV.le : FV → FV → Bool
  | .nan, _ => false
  | _, .nan => false
  | .negInf, _ => true
  | _, .negInf => false
  | _, .posInf => true
  | .posInf, _ => false
  | .fin a, .fin b => decide (a ≤ b)

/-! ## `calculate_grade` (`src/main.rs:602-637`)

The local `let` bindings of the Rust function are lifted to top-level
definitions with the same names. -/

/-- The `valid_weights` list: weights of graded assignments. -/
def valid_weights (assignments : List Assignment) : List ℚ :=
  assignments.filterMap (fun a => a.grade.map (fun _ => a.weight))

/-- The `future_weights` list: weights of ungraded assignments. -/
def future_weights (assignments : List Assignment) : List ℚ :=
  assignments.filterMap (fun a =>
    match a.grade with
    | some _ => none
    | none => some a.weight)

/-- The `total_weight` value: sum of graded weights. -/
def total_weight (assignments : List Assignment) : ℚ :=
  (valid_weights assignments).sum

/-- The `grades` list: the present grades. -/
def grades (assignments : List Assignment) : List ℚ :=
  assignments.filterMap (fun a => a.grade)

/-- The `scaled_grade` value: fold of `grade * weight + sum` over the zipped lists. -/
def scaled_grade (assignments : List Assignment) : ℚ :=
  ((grades assignments).zip (valid_weights assignments)).foldl
    (fun sum grade_pair => grade_pair.1 * grade_pair.2 + sum) 0

/-- The `future_weight` value: sum of ungraded weights. -/
def future_weight (assignments : List Assignment) : ℚ :=
  (future_weights assignments).sum

/-- The value `optimistic_grade = scaled_grade + 100.0 * (100.0 - total_weight)`. -/
def optimistic_grade (assignments : List Assignment) : ℚ :=
  scaled_grade assignments + 100 * (100 - total_weight assignments)

/-- Model of `calculate_grade`: the four-way grade projection
`(current, minimum, maximum, upside)`. -/
def calculate_grade (assignments : List Assignment) : FV × FV × FV × FV :=
  (FV.div (.fin (scaled_grade assignments)) (.fin (total_weight assignments)),
   FV.div (.fin (scaled_grade assignments)) (.fin 100),
   FV.div (.fin (optimistic_grade assignments)) (.fin 100),
   FV.sub
     (FV.div
       (.fin (scaled_grade assignments + 100 * future_weight assignments))
       (.fin (total_weight assignments + future_weight assignments)))
     (FV.div (.fin (scaled_grade assignments)) (.fin (total_weight assignments))))

/-! ## Spec-side quantities (§4.1 of the spec) -/

/-- Spec §4.1: `scaledPoints = Σ (grade × weight) over graded`. -/
def scaledPoints (records : List Assignment) : ℚ :=
  (records.filterMap (fun a => a.grade.map (fun g => g * a.weight))).sum

/-- Spec §4.1: `gradedWeightSum = Σ weight over graded`. -/
def gradedWeightSum (records : List Assignment) : ℚ :=
  ((records.filter (fun a => a.grade.isSome)).map (fun a => a.weight)).sum

/-- Spec §4.1: `ungradedWeightSum = Σ weight over ungraded`. -/
def ungradedWeightSum (records : List Assignment) : ℚ :=
  ((records.filter (fun a => a.grade.isNone)).map (fun a => a.weight)).sum

/-! ## Strings: structural models of `str::trim` and `str::to_lowercase`

`String.trim`/`String.toLower` from core are byte-position based and do not
reduce in the kernel, so the Rust operations are modelled structurally over
the character list (equivalent on the ASCII tokens this program compares). -/

/-- Model of Rust `str::to_lowercase` (ASCII-faithful). -/
def toLowerStr (s : String) : String :=
  ⟨s.data.map Char.toLower⟩

/-- Model of Rust `str::trim`: drop whitespace from both ends. -/
def trimStr (s : String) : String :=
  ⟨(((s.data.dropWhile Char.isWhitespace).reverse).dropWhile Char.isWhitespace).reverse⟩

/-- Model of `remove_whitespace` (`src/main.rs:639-641`). -/
def remove_whitespace (s : String) : String :=
  ⟨s.data.filter (fun c => !c.isWhitespace)⟩

/-! ## Assignment resolution and disambiguation (`submit_file`, `src/main.rs:229-343`) -/

/-- The ungraded assignments, the candidate set of the resolver
(`.filter(|assignment| !assignment.graded())`, `src/main.rs:268-272`). -/
def candidates (assignments : List Assignment) : List Assignment :=
  assignments.filter (fun a => !a.graded)

/-- The comparator of `assignments.sort_by(|a1, a2| a2.due_date.cmp(&a1.due_date))`:
`a1` sorts before `a2` iff `a1` is due no earlier than `a2`. -/
def dueGe (a1 a2 : Assignment) : Prop :=
  a2.due_date ≤ a1.due_date

instance : DecidableRel dueGe :=
  fun a1 a2 => inferInstanceAs (Decidable (a2.due_date ≤ a1.due_date))

/-- The stable Rust `sort_by` with the descending due-date comparator, modelled by
the (stable) insertion sort. -/
def sortByDueDesc (l : List Assignment) : List Assignment :=
  l.insertionSort dueGe

/-- Model of `submission_candidate_indices` (`src/main.rs:282-290`): `vec![0]` in
most-recent mode, otherwise whatever the fuzzy engine returned. -/
def submission_candidate_indices (recent : Bool) (searchResult : List Nat) : List Nat :=
  if recent then [0] else searchResult

/-- Outcome of one response line in `validate_assignment` (`src/main.rs:565-584`). -/
inductive ConfirmOutcome where
  | yes : ConfirmOutcome
  | no : ConfirmOutcome
  | retry : ConfirmOutcome
  deriving DecidableEq

/-- One iteration of the `validate_assignment` loop body: empty or
(lowercased) `"y"` accepts, (lowercased) `"n"` declines, anything else
re-prompts. -/
def validate_response (ans : String) : ConfirmOutcome :=
  if trimStr ans == "" || toLowerStr (trimStr ans) == "y" then .yes
  else if toLowerStr (trimStr ans) == "n" then .no
  else .retry

/-- The read loop of `validate_assignment` over a script of stdin lines: returns the
decision (`true` = `Ok(Some(assignment))`, `false` = `Ok(None)`) and the
unconsumed lines, or `none` if the script ends before a decisive answer. -/
def validate_assignment : List String → Option (Bool × List String)
  | [] => none
  | ans :: rest =>
    match validate_response ans with
    | .yes => some (true, rest)
    | .no => some (false, rest)
    | .retry => validate_assignment rest

/-- States of the disambiguation workflow (spec §4.4): walking the ranked
candidate list with one confirmation prompt per candidate. -/
inductive WState (α : Type) where
  | pending : α → List α → WState α
  | confirmed : α → WState α
  | exhausted : WState α
  deriving DecidableEq

/-- One response line of the disambiguation workflow: the state-machine
presentation of the `for idx in submission_candidate_indices` loop over
`validate_assignment` (`src/main.rs:302-314`), classifying the line exactly as
`validate_response` does. -/
def wstep {α : Type} (s : WState α) (ans : String) : WState α :=
  match s with
  | .pending c rest =>
    match validate_response ans with
    | .yes => .confirmed c
    | .no =>
      match rest with
      | [] => .exhausted
      | c2 :: r2 => .pending c2 r2
    | .retry => .pending c rest
  | s => s

/-- Outcome of one response line at the lateness gate (`src/main.rs:330-342`). -/
inductive LateOutcome where
  | proceed : LateOutcome
  | abort : LateOutcome
  | retry : LateOutcome
  deriving DecidableEq

/-- One iteration of the lateness-gate loop body:
`"y" | "yes" => break`, `"n" | "" | "no" => Err`, otherwise re-prompt
(all after trimming and lowercasing). -/
def late_response (ans : String) : LateOutcome :=
  if toLowerStr (trimStr ans) == "y" || toLowerStr (trimStr ans) == "yes" then .proceed
  else if toLowerStr (trimStr ans) == "n" || toLowerStr (trimStr ans) == ""
      || toLowerStr (trimStr ans) == "no" then .abort
  else .retry

/-- The lateness-gate read loop over a script of stdin lines: `some true` =
proceed with the submission, `some false` = abort, `none` = script ends
before a decisive answer. -/
def late_gate : List String → Option Bool
  | [] => none
  | ans :: rest =>
    match late_response ans with
    | .proceed => some true
    | .abort => some false
    | .retry => late_gate rest

/-- Error outcomes of the resolution phase of `submit_file`, one per `Err` return
(`src/main.rs:276-343`). -/
inductive SubmitErr where
  | allGraded : SubmitErr
  | noMatch : SubmitErr
  | exhausted : SubmitErr
  | stdinErr : SubmitErr
  | badIndex : SubmitErr
  | userAbort : SubmitErr
  deriving DecidableEq

/-- The `for idx in submission_candidate_indices` loop (`src/main.rs:302-314`):
confirm candidates in rank order until one is accepted (`Ok(Some)`), skipping
declined ones (`Ok(None)`); an exhausted index list is the
could-not-find-the-right-assignment error.  `badIndex` models the Rust panic
on an out-of-range index from the engine. -/
def candidate_loop (sorted : List Assignment) :
    List Nat → List String → Except SubmitErr (Assignment × List String)
  | [], _ => .error .exhausted
  | idx :: restIdx, inputs =>
    match sorted[idx]? with
    | none => .error .badIndex
    | some a =>
      match validate_assignment inputs with
      | none => .error .stdinErr
      | some (true, restIn) => .ok (a, restIn)
      | some (false, restIn) => candidate_loop sorted restIdx restIn

/-- The candidate-selection phase of `submit_file` (`src/main.rs:268-315`):
filter out graded assignments, fail if nothing is left, sort by due date
descending, resolve (most-recent shortcut or fuzzy engine `search`), then
disambiguate interactively.  Returns the chosen assignment and the unconsumed
stdin lines. -/
def submit_select (recent : Bool) (search : List Assignment → String → List Nat)
    (query : String) (assignments : List Assignment) (inputs : List String) :
    Except SubmitErr (Assignment × List String) :=
  let cand := candidates assignments
  if cand.isEmpty then .error .allGraded
  else
    let sorted := sortByDueDesc cand
    let indices := submission_candidate_indices recent (search sorted (remove_whitespace query))
    if indices.isEmpty then .error .noMatch
    else if recent then
      match sorted[0]? with
      | none => .error .badIndex
      | some a => .ok (a, inputs)
    else candidate_loop sorted indices inputs

/-- Candidate selection followed by the lateness gate
(`src/main.rs:317-343`): if the chosen assignment is late, a second
confirmation must pass before it is released; `"no"` there aborts the whole
operation. -/
def submit_flow (recent : Bool) (search : List Assignment → String → List Nat)
    (query : String) (now : Int) (assignments : List Assignment)
    (inputs : List String) : Except SubmitErr Assignment :=
  match submit_select recent search query assignments inputs with
  | .error e => .error e
  | .ok (a, rest) =>
    if a.late now then
      match late_gate rest with
      | some true => .ok a
      | some false => .error .userAbort
      | none => .error .stdinErr
    else .ok a

/-- The first element of maximal `due_date` in a list (ties resolved in favor
of the earlier element). -/
def firstMax : List Assignment → Option Assignment
  | [] => none
  | a :: rest =>
    match firstMax rest with
    | none => some a
    | some b => if a.due_date < b.due_date then some b else some a

/-! ## Concrete fixtures -/

/-- The regression fixture of spec §8. -/
def exRecords : List Assignment :=
  [⟨"HW1", 1, some 90, 20, 0⟩, ⟨"HW2", 2, none, 30, 0⟩, ⟨"HW3", 3, none, 50, 0⟩]

/-- A single ungraded record. -/
def exUngraded : Assignment := ⟨"HW1", 1, none, 20, 0⟩

/-- A fully graded pair of records with weights summing to 100. -/
def exAllGraded : List Assignment := [⟨"A", 1, some 90, 40, 0⟩, ⟨"B", 2, some 80, 60, 0⟩]

/-- A submit-command fixture: graded "B" is excluded; among the ungraded,
"C" (due 7) is more recent than "A" (due 3). -/
def exSubmitList : List Assignment :=
  [⟨"A", 1, none, 0, 3⟩, ⟨"B", 2, some 1, 0, 9⟩, ⟨"C", 3, none, 0, 7⟩]

example : calculate_grade
    [⟨"HW1", 1, some 90, 20, 0⟩, ⟨"HW2", 2, none, 30, 0⟩, ⟨"HW3", 3, none, 50, 0⟩]
    = (.fin 90, .fin 18, .fin 98, .fin 8) := by
  norm_num [calculate_grade, scaled_grade, grades, valid_weights, total_weight,
    future_weight, future_weights, optimistic_grade, FV.div, FV.sub, List.filterMap_cons]

example : calculate_grade [⟨"HW1", 1, none, 20, 0⟩] = (.nan, .fin 0, .fin 100, .nan) := by
  norm_num [calculate_grade, scaled_grade, grades, valid_weights, total_weight,
    future_weight, future_weights, optimistic_grade, FV.div, FV.sub, List.filterMap_cons]

/-! ## Basic facts about the floating-value model -/

theorem FV.sub_nan (x : FV) : FV.sub x .nan = .nan := by
  cases x <;> rfl

theorem FV.div_fin_fin {a b : ℚ} (hb : b ≠ 0) :
    FV.div (.fin a) (.fin b) = .fin (a / b) := by
  simp [FV.div, hb]

/-! ## Bridging lemmas: the folds in the code equal the sums in the spec -/

theorem foldl_mul_add (l : List (ℚ × ℚ)) (c : ℚ) :
    l.foldl (fun sum p => p.1 * p.2 + sum) c = c + (l.map (fun p => p.1 * p.2)).sum := by
  induction l generalizing c with
  | nil => simp
  | cons p t ih => simp only [List.foldl_cons, List.map_cons, List.sum_cons, ih]; ring

theorem zip_grades_valid_weights (l : List Assignment) :
    ((grades l).zip (valid_weights l)).map (fun p => p.1 * p.2) =
      l.filterMap (fun a => a.grade.map (fun g => g * a.weight)) := by
  induction l with
  | nil => rfl
  | cons a t ih =>
    cases h : a.grade with
    | none =>
      simp only [grades, valid_weights, List.filterMap_cons, h, Option.map_none]
      exact ih
    | some g =>
      simp only [grades, valid_weights, List.filterMap_cons, h, Option.map_some,
        List.zip_cons_cons, List.map_cons]
      rw [← ih]
      rfl

theorem scaled_grade_eq_scaledPoints (l : List Assignment) :
    scaled_grade l = scaledPoints l := by
  rw [scaled_grade, foldl_mul_add, zip_grades_valid_weights, scaledPoints, zero_add]

theorem valid_weights_eq (l : List Assignment) :
    valid_weights l = (l.filter (fun a => a.grade.isSome)).map (fun a => a.weight) := by
  induction l with
  | nil => rfl
  | cons a t ih =>
    cases h : a.grade <;>
      simp [valid_weights, List.filterMap_cons, List.filter_cons, h, ← ih]

theorem future_weights_eq (l : List Assignment) :
    future_weights l = (l.filter (fun a => a.grade.isNone)).map (fun a => a.weight) := by
  induction l with
  | nil => rfl
  | cons a t ih =>
    cases h : a.grade <;>
      simp [future_weights, List.filterMap_cons, List.filter_cons, h, ← ih]

theorem total_weight_eq_gradedWeightSum (l : List Assignment) :
    total_weight l = gradedWeightSum l := by
  rw [total_weight, valid_weights_eq, gradedWeightSum]

theorem future_weight_eq_ungradedWeightSum (l : List Assignment) :
    future_weight l = ungradedWeightSum l := by
  rw [future_weight, future_weights_eq, ungradedWeightSum]

theorem weight_sum_split (l : List Assignment) :
    gradedWeightSum l + ungradedWeightSum l = (l.map (fun a => a.weight)).sum := by
  induction l with
  | nil => simp [gradedWeightSum, ungradedWeightSum]
  | cons a t ih =>
    cases h : a.grade <;>
      simp [gradedWeightSum, ungradedWeightSum, List.filter_cons, h] at ih ⊢ <;>
      linarith [ih]

theorem scaledPoints_nonneg (l : List Assignment)
    (hw : ∀ a ∈ l, 0 ≤ a.weight)
    (hg : ∀ a ∈ l, a.grade.elim True (fun g => 0 ≤ g ∧ g ≤ 100)) :
    0 ≤ scaledPoints l := by
  induction l with
  | nil => simp [scaledPoints]
  | cons a t ih =>
    have hwt : ∀ b ∈ t, 0 ≤ b.weight := fun b hb => hw b (List.mem_cons_of_mem a hb)
    have hgt : ∀ b ∈ t, b.grade.elim True (fun g => 0 ≤ g ∧ g ≤ 100) :=
      fun b hb => hg b (List.mem_cons_of_mem a hb)
    have hta := ih hwt hgt
    cases h : a.grade with
    | none => simpa [scaledPoints, List.filterMap_cons, h] using hta
    | some g =>
      have hga := hg a (List.mem_cons_self a t)
      rw [h] at hga
      have hwa := hw a (List.mem_cons_self a t)
      have hprod : 0 ≤ g * a.weight := mul_nonneg hga.1 hwa
      simp [scaledPoints, List.filterMap_cons, h] at hta ⊢
      linarith

theorem scaledPoints_le (l : List Assignment)
    (hw : ∀ a ∈ l, 0 ≤ a.weight)
    (hg : ∀ a ∈ l, a.grade.elim True (fun g => 0 ≤ g ∧ g ≤ 100)) :
    scaledPoints l ≤ 100 * gradedWeightSum l := by
  induction l with
  | nil => simp [scaledPoints, gradedWeightSum]
  | cons a t ih =>
    have hwt : ∀ b ∈ t, 0 ≤ b.weight := fun b hb => hw b (List.mem_cons_of_mem a hb)
    have hgt : ∀ b ∈ t, b.grade.elim True (fun g => 0 ≤ g ∧ g ≤ 100) :=
      fun b hb => hg b (List.mem_cons_of_mem a hb)
    have hta := ih hwt hgt
    cases h : a.grade with
    | none =>
      simpa [scaledPoints, gradedWeightSum, List.filterMap_cons, List.filter_cons, h] using hta
    | some g =>
      have hga := hg a (List.mem_cons_self a t)
      rw [h] at hga
      have hwa := hw a (List.mem_cons_self a t)
      have hmul : g * a.weight ≤ 100 * a.weight :=
        mul_le_mul_of_nonneg_right hga.2 hwa
      simp [scaledPoints, gradedWeightSum, List.filterMap_cons, List.filter_cons, h]
        at hta ⊢
      linarith

theorem ungradedWeightSum_nonneg (l : List Assignment)
    (hw : ∀ a ∈ l, 0 ≤ a.weight) : 0 ≤ ungradedWeightSum l := by
  rw [ungradedWeightSum]
  apply List.sum_nonneg
  intro x hx
  obtain ⟨a, ha, rfl⟩ := List.mem_map.mp hx
  exact hw a (List.mem_filter.mp ha).1

theorem valid_weights_eq_nil (l : List Assignment) (h : ∀ a ∈ l, a.grade = none) :
    valid_weights l = [] := by
  induction l with
  | nil => rfl
  | cons a t ih =>
    have ha := h a (List.mem_cons_self a t)
    simp only [valid_weights, List.filterMap_cons, ha, Option.map_none]
    exact ih fun b hb => h b (List.mem_cons_of_mem a hb)

theorem future_weights_eq_nil (l : List Assignment) (h : ∀ a ∈ l, a.grade.isSome = true) :
    future_weights l = [] := by
  induction l with
  | nil => rfl
  | cons a t ih =>
    have ha := h a (List.mem_cons_self a t)
    rw [Option.isSome_iff_exists] at ha
    obtain ⟨g, hg⟩ := ha
    simp only [future_weights, List.filterMap_cons, hg]
    exact ih fun b hb => h b (List.mem_cons_of_mem a hb)

/-! ## Claim theorems: grade projection -/

/-- C8: for every input sequence of records the projection computes
`minimum = scaledPoints / 100` (a total formula: `0` when nothing is graded)
and `maximum = (scaledPoints + 100 × (100 − gradedWeightSum)) / 100`, where
`scaledPoints` and `gradedWeightSum` are the sums of spec §4.1 over graded records. -/
theorem minimum_maximum_formulas (records : List Assignment) :
    (calculate_grade records).2.1 = FV.fin (scaledPoints records / 100)
    ∧ (calculate_grade records).2.2.1
      = FV.fin ((scaledPoints records + 100 * (100 - gradedWeightSum records)) / 100) := by
  constructor <;>
    simp only [calculate_grade, optimistic_grade, scaled_grade_eq_scaledPoints,
      total_weight_eq_gradedWeightSum] <;>
    rw [FV.div_fin_fin (by norm_num)]

/-- C1 (amended): when no record has a present grade, `calculate_grade`
silently returns the NaN value for `current` and `upside` — it signals no
error, its type is total — and returns `minimum = 0`. -/
theorem nothing_graded_nan (records : List Assignment)
    (h : ∀ a ∈ records, a.grade = none) :
    (calculate_grade records).1 = FV.nan
    ∧ (calculate_grade records).2.2.2 = FV.nan
    ∧ (calculate_grade records).2.1 = FV.fin 0 := by
  have hvw : valid_weights records = [] := valid_weights_eq_nil records h
  have htw : total_weight records = 0 := by simp [total_weight, hvw]
  have hsg : scaled_grade records = 0 := by simp [scaled_grade, hvw]
  have hdiv0 : FV.div (.fin (0 : ℚ)) (.fin (0 : ℚ)) = .nan := by simp [FV.div]
  refine ⟨?_, ?_, ?_⟩
  · simp only [calculate_grade]
    rw [htw, hsg, hdiv0]
  · simp only [calculate_grade]
    rw [htw, hsg, hdiv0, FV.sub_nan]
  · simp only [calculate_grade]
    rw [hsg, FV.div_fin_fin (show (100 : ℚ) ≠ 0 by norm_num)]
    norm_num

/-- C1 counterexample: on one ungraded record, `current` and `upside` ARE the
silently returned NaN value (no `UndefinedProjection` error exists in the
code, `calculate_grade` being a total function into values), contrary to the
claim that an error is signalled rather than NaN returned. -/
theorem nothing_graded_nan_cex :
    (calculate_grade [exUngraded]).1 = FV.nan
    ∧ (calculate_grade [exUngraded]).2.2.2 = FV.nan
    ∧ FV.nan ≠ FV.fin 0 := by
  refine ⟨?_, ?_, by decide⟩ <;>
    norm_num [exUngraded, calculate_grade, scaled_grade, grades, valid_weights, total_weight,
      future_weight, future_weights, optimistic_grade, FV.div, FV.sub, List.filterMap_cons]

theorem nothing_graded_nan_witness :
    (calculate_grade [exUngraded]).1 = FV.nan
    ∧ (calculate_grade [exUngraded]).2.2.2 = FV.nan
    ∧ (calculate_grade [exUngraded]).2.1 = FV.fin 0 :=
  nothing_graded_nan [exUngraded] (by intro a ha; rw [List.mem_singleton.mp ha]; rfl)

/-- C4 counterexample: on the literal regression fixture of spec §8 the computed
`upside` output is `8`, not `−9.2 = −46/5`, so the claimed output quadruple is
false. -/
theorem example_fixture_cex :
    ¬ ((calculate_grade exRecords).1 = FV.fin 90
      ∧ (calculate_grade exRecords).2.1 = FV.fin 18
      ∧ (calculate_grade exRecords).2.2.1 = FV.fin 98
      ∧ (calculate_grade exRecords).2.2.2 = FV.fin (-(46 / 5))) := by
  intro hclaim
  have h4 := hclaim.2.2.2
  norm_num [exRecords, calculate_grade, scaled_grade, grades, valid_weights, total_weight,
    future_weight, future_weights, optimistic_grade, FV.div, FV.sub, List.filterMap_cons]
    at h4

/-- C4 (amended): on the literal fixture the projection returns
`current = 90`, `minimum = 18`, `maximum = 98`, and `upside = 8`. -/
theorem example_fixture_values :
    calculate_grade exRecords = (FV.fin 90, FV.fin 18, FV.fin 98, FV.fin 8) := by
  norm_num [exRecords, calculate_grade, scaled_grade, grades, valid_weights, total_weight,
    future_weight, future_weights, optimistic_grade, FV.div, FV.sub, List.filterMap_cons]

/-- C5: under the data-model invariants of spec §3 (nonnegative weights
summing to 100 across all records, grades on the 0–100 scale), every input
whose graded subset is non-empty with positive weight sum satisfies
`minimum ≤ current ≤ maximum`. -/
theorem minimum_le_current_le_maximum (records : List Assignment)
    (_hne : records.filter (fun a => a.grade.isSome) ≠ [])
    (hpos : 0 < total_weight records)
    (hw : ∀ a ∈ records, 0 ≤ a.weight)
    (hg : ∀ a ∈ records, a.grade.elim True (fun g => 0 ≤ g ∧ g ≤ 100))
    (hsum : (records.map (fun a => a.weight)).sum = 100) :
    FV.le (calculate_grade records).2.1 (calculate_grade records).1 = true
    ∧ FV.le (calculate_grade records).1 (calculate_grade records).2.2.1 = true := by
  have hT0 : total_weight records ≠ 0 := ne_of_gt hpos
  have hS0 : 0 ≤ scaled_grade records := by
    rw [scaled_grade_eq_scaledPoints]
    exact scaledPoints_nonneg records hw hg
  have hST : scaled_grade records ≤ 100 * total_weight records := by
    rw [scaled_grade_eq_scaledPoints, total_weight_eq_gradedWeightSum]
    exact scaledPoints_le records hw hg
  have hT100 : total_weight records ≤ 100 := by
    have hsplit := weight_sum_split records
    have hun : 0 ≤ ungradedWeightSum records := ungradedWeightSum_nonneg records hw
    rw [total_weight_eq_gradedWeightSum]
    linarith
  constructor
  · simp only [calculate_grade]
    rw [FV.div_fin_fin hT0, FV.div_fin_fin (show (100 : ℚ) ≠ 0 by norm_num)]
    simp only [FV.le, decide_eq_true_eq]
    rw [div_le_div_iff₀ (by norm_num) hpos]
    exact mul_le_mul_of_nonneg_left hT100 hS0
  · simp only [calculate_grade, optimistic_grade]
    rw [FV.div_fin_fin hT0, FV.div_fin_fin (show (100 : ℚ) ≠ 0 by norm_num)]
    simp only [FV.le, decide_eq_true_eq]
    rw [div_le_div_iff₀ hpos (by norm_num)]
    nlinarith [mul_le_mul_of_nonneg_right hST
      (show (0 : ℚ) ≤ 100 - total_weight records by linarith)]

theorem minimum_le_current_le_maximum_witness :
    FV.le (calculate_grade exRecords).2.1 (calculate_grade exRecords).1 = true
    ∧ FV.le (calculate_grade exRecords).1 (calculate_grade exRecords).2.2.1 = true :=
  minimum_le_current_le_maximum exRecords
    (by simp [exRecords])
    (by norm_num [total_weight, valid_weights, exRecords, List.filterMap_cons])
    (by
      intro a ha
      simp only [exRecords, List.mem_cons, List.not_mem_nil, or_false] at ha
      rcases ha with h | h | h <;> subst h <;> norm_num)
    (by
      intro a ha
      simp only [exRecords, List.mem_cons, List.not_mem_nil, or_false] at ha
      rcases ha with h | h | h <;> subst h <;> norm_num [Option.elim])
    (by norm_num [exRecords])

/-- C9: if the ungraded subset is empty (under the weights-sum-to-100
invariant, with positive graded weight sum), `upside = 0` and
`minimum = maximum`. -/
theorem no_ungraded_upside_zero (records : List Assignment)
    (hall : ∀ a ∈ records, a.grade.isSome = true)
    (hsum : (records.map (fun a => a.weight)).sum = 100)
    (hpos : 0 < total_weight records) :
    (calculate_grade records).2.2.2 = FV.fin 0
    ∧ (calculate_grade records).2.1 = (calculate_grade records).2.2.1 := by
  have hfw : future_weight records = 0 := by
    simp [future_weight, future_weights_eq_nil records hall]
  have hT : total_weight records = 100 := by
    have hsplit := weight_sum_split records
    have hfu := future_weight_eq_ungradedWeightSum records
    rw [total_weight_eq_gradedWeightSum]
    linarith
  have hT0 : total_weight records ≠ 0 := ne_of_gt hpos
  constructor
  · simp only [calculate_grade]
    rw [hfw]
    norm_num
    rw [FV.div_fin_fin hT0]
    simp [FV.sub]
  · simp only [calculate_grade, optimistic_grade]
    rw [hT]
    norm_num

theorem no_ungraded_upside_zero_witness :
    (calculate_grade exAllGraded).2.2.2 = FV.fin 0
    ∧ (calculate_grade exAllGraded).2.1 = (calculate_grade exAllGraded).2.2.1 :=
  no_ungraded_upside_zero exAllGraded
    (by intro a ha; simp only [exAllGraded, List.mem_cons, List.not_mem_nil, or_false] at ha
        rcases ha with h | h <;> subst h <;> rfl)
    (by norm_num [exAllGraded])
    (by norm_num [total_weight, valid_weights, exAllGraded, List.filterMap_cons])

/-! ## Sorting lemmas: the head of the stable descending sort is the first
element of maximal due date -/

theorem firstMax_eq_none_iff (l : List Assignment) : firstMax l = none ↔ l = [] := by
  cases l with
  | nil => simp [firstMax]
  | cons a t =>
    cases hf : firstMax t with
    | none => simp [firstMax, hf]
    | some b =>
      simp only [firstMax, hf]
      split <;> simp

theorem head?_sortByDueDesc (l : List Assignment) :
    (sortByDueDesc l).head? = firstMax l := by
  induction l with
  | nil => rfl
  | cons a t ih =>
    simp only [sortByDueDesc, List.insertionSort] at ih ⊢
    cases hs : List.insertionSort dueGe t with
    | nil =>
      rw [hs] at ih
      simp only [List.head?_nil] at ih
      simp [firstMax, ← ih]
    | cons b s =>
      rw [hs] at ih
      simp only [List.head?_cons] at ih
      simp only [List.orderedInsert]
      by_cases hab : dueGe a b
      · rw [if_pos hab]
        simp only [List.head?_cons, firstMax, ← ih]
        rw [if_neg (not_lt.mpr hab)]
      · rw [if_neg hab]
        simp only [List.head?_cons, firstMax, ← ih]
        rw [if_pos (not_le.mp hab)]

theorem firstMax_spec (l : List Assignment) (m : Assignment) (h : firstMax l = some m) :
    ∃ l1 l2, l = l1 ++ m :: l2 ∧ (∀ b ∈ l1, b.due_date < m.due_date)
      ∧ ∀ b ∈ l, b.due_date ≤ m.due_date := by
  induction l generalizing m with
  | nil => simp [firstMax] at h
  | cons a t ih =>
    cases hf : firstMax t with
    | none =>
      simp only [firstMax, hf, Option.some.injEq] at h
      subst h
      have ht : t = [] := (firstMax_eq_none_iff t).mp hf
      subst ht
      exact ⟨[], [], rfl, by simp, by simp⟩
    | some b =>
      by_cases hab : a.due_date < b.due_date
      · simp only [firstMax, hf, hab, if_true, Option.some.injEq] at h
        subst h
        obtain ⟨l1, l2, heq, hlt, hle⟩ := ih b hf
        refine ⟨a :: l1, l2, by rw [heq]; rfl, ?_, ?_⟩
        · intro x hx
          rcases List.mem_cons.mp hx with rfl | hx'
          · exact hab
          · exact hlt x hx'
        · intro x hx
          rcases List.mem_cons.mp hx with rfl | hx'
          · exact le_of_lt hab
          · exact hle x hx'
      · simp only [firstMax, hf, hab, if_false, Option.some.injEq] at h
        subst h
        obtain ⟨l1, l2, heq, hlt, hle⟩ := ih b hf
        refine ⟨[], t, rfl, by simp, ?_⟩
        intro x hx
        rcases List.mem_cons.mp hx with rfl | hx'
        · exact le_refl _
        · exact le_trans (hle x hx') (not_lt.mp hab)

/-! ## Claim theorems: resolution and disambiguation -/

/-- C6: in most-recent mode, resolution returns exactly one index (`[0]`)
regardless of the query, and the selected candidate is the first element of
maximal `due_date` in original scrape order among the (ungraded) candidates:
every earlier candidate is due strictly earlier, and no candidate is due
later.  No confirmation input is consumed. -/
theorem recent_mode_selects_most_recent
    (search : List Assignment → String → List Nat) (query : String)
    (assignments : List Assignment) (inputs : List String)
    (hc : candidates assignments ≠ []) :
    (∀ r : List Nat, submission_candidate_indices true r = [0])
    ∧ ∃ m l1 l2,
      submit_select true search query assignments inputs = .ok (m, inputs)
      ∧ candidates assignments = l1 ++ m :: l2
      ∧ (∀ b ∈ l1, b.due_date < m.due_date)
      ∧ (∀ b ∈ candidates assignments, b.due_date ≤ m.due_date) := by
  refine ⟨fun r => rfl, ?_⟩
  obtain ⟨m, hm⟩ : ∃ m, firstMax (candidates assignments) = some m := by
    cases hf : firstMax (candidates assignments) with
    | none => exact absurd ((firstMax_eq_none_iff _).mp hf) hc
    | some m => exact ⟨m, rfl⟩
  obtain ⟨l1, l2, heq, hlt, hle⟩ := firstMax_spec _ m hm
  have hhead : (sortByDueDesc (candidates assignments)).head? = some m := by
    rw [head?_sortByDueDesc]; exact hm
  have hemp : (candidates assignments).isEmpty = false := List.isEmpty_eq_false.mpr hc
  refine ⟨m, l1, l2, ?_, heq, hlt, hle⟩
  simp only [submit_select, hemp, submission_candidate_indices, Bool.false_eq_true,
    if_false, if_true, List.isEmpty_cons, ← List.head?_eq_getElem?, hhead]

theorem recent_mode_selects_most_recent_witness :
    (∀ r : List Nat, submission_candidate_indices true r = [0])
    ∧ ∃ m l1 l2,
      submit_select true (fun _ _ => []) "anything" exSubmitList ["x"] = .ok (m, ["x"])
      ∧ candidates exSubmitList = l1 ++ m :: l2
      ∧ (∀ b ∈ l1, b.due_date < m.due_date)
      ∧ (∀ b ∈ candidates exSubmitList, b.due_date ≤ m.due_date) :=
  recent_mode_selects_most_recent (fun _ _ => []) "anything" exSubmitList ["x"]
    (by simp [candidates, Assignment.graded, exSubmitList])

/-- C7: the resolution phase fails with the empty-candidate error
("all assignments have been graded", named `InvalidInput` /
`EmptyCandidateSet`) whenever the candidate set is empty, in any mode; and
when candidates exist but the fuzzy engine clears none above its threshold
(returns the empty index list), it fails with the no-match error rather than
picking any candidate. -/
theorem resolver_error_conditions :
    (∀ (recent : Bool) (search : List Assignment → String → List Nat)
      (query : String) (assignments : List Assignment) (inputs : List String),
      candidates assignments = [] →
      submit_select recent search query assignments inputs = .error .allGraded)
    ∧ (∀ (search : List Assignment → String → List Nat)
      (query : String) (assignments : List Assignment) (inputs : List String),
      candidates assignments ≠ [] →
      search (sortByDueDesc (candidates assignments)) (remove_whitespace query) = [] →
      submit_select false search query assignments inputs = .error .noMatch) := by
  constructor
  · intro recent search query as inputs h
    simp [submit_select, h]
  · intro search query as inputs h hs
    have hemp : (candidates as).isEmpty = false := List.isEmpty_eq_false.mpr h
    simp [submit_select, hemp, submission_candidate_indices, hs]

theorem resolver_error_conditions_witness :
    submit_select false (fun _ _ => [0]) "q" [⟨"A", 1, some 1, 1, 0⟩] [] = .error .allGraded
    ∧ submit_select false (fun _ _ => []) "q" [⟨"A", 1, none, 1, 0⟩] [] = .error .noMatch :=
  ⟨resolver_error_conditions.1 false (fun _ _ => [0]) "q" [⟨"A", 1, some 1, 1, 0⟩] []
      (by simp [candidates, Assignment.graded]),
   resolver_error_conditions.2 (fun _ _ => []) "q" [⟨"A", 1, none, 1, 0⟩] []
      (by simp [candidates, Assignment.graded]) rfl⟩

/-- C10: in most-recent mode the per-candidate confirmation is skipped (the
selected candidate is returned with the stdin script untouched), but when the
selected candidate is late the lateness gate still runs on that untouched
script: the flow succeeds only on an affirmative answer, aborts on a negative
one, and fails on stdin exhaustion. -/
theorem recent_mode_still_late_gated
    (search : List Assignment → String → List Nat) (query : String) (now : Int)
    (assignments : List Assignment) (inputs : List String) (m : Assignment)
    (hm : (sortByDueDesc (candidates assignments)).head? = some m)
    (hlate : m.late now = true) :
    (late_gate inputs = some true →
      submit_flow true search query now assignments inputs = .ok m)
    ∧ (late_gate inputs = some false →
      submit_flow true search query now assignments inputs = .error .userAbort)
    ∧ (late_gate inputs = none →
      submit_flow true search query now assignments inputs = .error .stdinErr) := by
  have hc : candidates assignments ≠ [] := by
    intro hnil
    rw [hnil] at hm
    simp [sortByDueDesc] at hm
  have hemp : (candidates assignments).isEmpty = false := List.isEmpty_eq_false.mpr hc
  have hsel : submit_select true search query assignments inputs = .ok (m, inputs) := by
    simp only [submit_select, hemp, submission_candidate_indices, Bool.false_eq_true,
      if_false, if_true, List.isEmpty_cons, ← List.head?_eq_getElem?, hm]
  refine ⟨fun h => ?_, fun h => ?_, fun h => ?_⟩ <;>
    simp [submit_flow, hsel, hlate, h]

theorem recent_mode_still_late_gated_witness :
    submit_flow true (fun _ _ => []) "q" 5 [⟨"A", 1, none, 50, 3⟩] ["y"]
      = .ok ⟨"A", 1, none, 50, 3⟩ :=
  (recent_mode_still_late_gated (fun _ _ => []) "q" 5 [⟨"A", 1, none, 50, 3⟩] ["y"]
    ⟨"A", 1, none, 50, 3⟩ rfl rfl).1 rfl

/-- C2 counterexample: at a pending candidate, the response `"yes"` does not
confirm it and the response `"no"` does not advance past it (both re-prompt):
`validate_assignment` compares the lowercased trimmed line against the
single-letter tokens only. -/
theorem disambiguation_grammar_cex :
    wstep (WState.pending (0 : Nat) []) "yes" ≠ WState.confirmed 0
    ∧ wstep (WState.pending (0 : Nat) []) "no" ≠ WState.exhausted := by
  decide

/-- C2 (amended): for every pending candidate and response line: empty input
or case-insensitive `"y"` confirms the candidate (terminal success);
case-insensitive `"n"` advances to the next candidate, or to `Exhausted` if
none remains; anything else — including `"yes"` and `"no"` — re-prompts the
same candidate without consuming it. -/
theorem disambiguation_step_grammar {α : Type} (c : α) (rest : List α) (ans : String) :
    ((trimStr ans = "" ∨ toLowerStr (trimStr ans) = "y") →
      wstep (WState.pending c rest) ans = WState.confirmed c)
    ∧ ((trimStr ans ≠ "" ∧ toLowerStr (trimStr ans) ≠ "y"
        ∧ toLowerStr (trimStr ans) = "n") →
      wstep (WState.pending c rest) ans =
        match rest with
        | [] => WState.exhausted
        | c2 :: r2 => WState.pending c2 r2)
    ∧ ((trimStr ans ≠ "" ∧ toLowerStr (trimStr ans) ≠ "y"
        ∧ toLowerStr (trimStr ans) ≠ "n") →
      wstep (WState.pending c rest) ans = WState.pending c rest) := by
  refine ⟨fun h => ?_, fun h => ?_, fun h => ?_⟩
  · have hv : validate_response ans = .yes := by
      rcases h with h | h <;> simp [validate_response, h]
    simp [wstep, hv]
  · obtain ⟨h1, h2, h3⟩ := h
    have hv : validate_response ans = .no := by
      simp only [validate_response]
      rw [if_neg (by simp [Bool.or_eq_true, beq_iff_eq, h1, h2]),
        if_pos (by simp [beq_iff_eq, h3])]
    cases rest <;> simp [wstep, hv]
  · obtain ⟨h1, h2, h3⟩ := h
    have hv : validate_response ans = .retry := by
      simp only [validate_response]
      rw [if_neg (by simp [Bool.or_eq_true, beq_iff_eq, h1, h2]),
        if_neg (by simp [beq_iff_eq, h3])]
    simp [wstep, hv]

theorem disambiguation_step_grammar_witness :
    wstep (WState.pending (0 : Nat) [1]) "Y" = WState.confirmed 0
    ∧ wstep (WState.pending (0 : Nat) [1]) "N" = WState.pending 1 [] :=
  ⟨(disambiguation_step_grammar 0 [1] "Y").1 (Or.inr (by decide)),
   (disambiguation_step_grammar 0 [1] "N").2.1 ⟨by decide, by decide, by decide⟩⟩

/-- C3 counterexample: at the lateness gate, empty input is NEGATIVE — it
aborts the submission — whereas the claim says the gate uses the candidate
grammar in which empty input is affirmative. -/
theorem late_gate_grammar_cex :
    late_gate [""] = some false ∧ some false ≠ (some true : Option Bool) := by
  decide

/-- C3 (amended): the lateness gate accepts case-insensitive `"y"`/`"yes"` as
affirmative and `"n"`/`"no"`/EMPTY input as negative, re-prompting on anything
else (so its grammar differs from the candidate gate, which accepts only
`"y"`/empty and `"n"`); a negative answer aborts the whole operation with the
user-abort error rather than returning to candidate selection. -/
theorem late_gate_grammar_and_abort :
    (∀ (ans : String) (rest : List String),
      ((toLowerStr (trimStr ans) = "y" ∨ toLowerStr (trimStr ans) = "yes") →
        late_gate (ans :: rest) = some true)
      ∧ ((toLowerStr (trimStr ans) = "n" ∨ toLowerStr (trimStr ans) = ""
          ∨ toLowerStr (trimStr ans) = "no") →
        late_gate (ans :: rest) = some false)
      ∧ ((toLowerStr (trimStr ans) ≠ "y" ∧ toLowerStr (trimStr ans) ≠ "yes"
          ∧ toLowerStr (trimStr ans) ≠ "n" ∧ toLowerStr (trimStr ans) ≠ ""
          ∧ toLowerStr (trimStr ans) ≠ "no") →
        late_gate (ans :: rest) = late_gate rest))
    ∧ (∀ (recent : Bool) (search : List Assignment → String → List Nat)
        (query : String) (now : Int) (assignments : List Assignment)
        (inputs : List String) (a : Assignment) (rest : List String),
        submit_select recent search query assignments inputs = .ok (a, rest) →
        a.late now = true → late_gate rest = some false →
        submit_flow recent search query now assignments inputs = .error .userAbort) := by
  constructor
  · intro ans rest
    refine ⟨fun h => ?_, fun h => ?_, fun h => ?_⟩
    · have hv : late_response ans = .proceed := by
        rcases h with h | h <;> simp [late_response, h]
      simp [late_gate, hv]
    · have hv : late_response ans = .abort := by
        rcases h with h | h | h <;>
          · simp only [late_response, h]
            decide
      simp [late_gate, hv]
    · obtain ⟨h1, h2, h3, h4, h5⟩ := h
      have hv : late_response ans = .retry := by
        simp only [late_response]
        rw [if_neg (by simp [Bool.or_eq_true, beq_iff_eq, h1, h2]),
          if_neg (by simp [Bool.or_eq_true, beq_iff_eq, h3, h4, h5])]
      simp [late_gate, hv]
  · intro recent search query now as inputs a rest hsel hlate hgate
    simp [submit_flow, hsel, hlate, hgate]

theorem late_gate_grammar_and_abort_witness :
    late_gate ["YES"] = some true ∧ late_gate ["n"] = some false
    ∧ submit_flow false (fun _ _ => [0]) "q" 10 [⟨"A", 1, none, 50, 3⟩] ["y", "n"]
      = .error .userAbort :=
  ⟨(late_gate_grammar_and_abort.1 "YES" []).1 (Or.inr (by decide)),
   (late_gate_grammar_and_abort.1 "n" []).2.1 (Or.inl (by decide)),
   late_gate_grammar_and_abort.2 false (fun _ _ => [0]) "q" 10 [⟨"A", 1, none, 50, 3⟩]
     ["y", "n"] ⟨"A", 1, none, 50, 3⟩ ["n"] rfl rfl rfl⟩

example : validate_response "yes" = .retry := by decide
example : validate_response "" = .yes := by decide
example : validate_response " N " = .no := by decide
example : late_response "" = .abort := by decide
example : late_response "YES" = .proceed := by decide
example : sortByDueDesc [⟨"A", 1, none, 0, 3⟩, ⟨"B", 2, none, 0, 7⟩, ⟨"C", 3, none, 0, 7⟩]
    = [⟨"B", 2, none, 0, 7⟩, ⟨"C", 3, none, 0, 7⟩, ⟨"A", 1, none, 0, 3⟩] := by decide

end Handins
